import Mathlib

/-!
Verification of the payload-decoding core of the esp32-smartcube sketch
(`src/esp32-smartcube.ino`). The decoding logic of `notifyCallback` together
with the helpers `getBit`/`getNibble` and the constants `decryptionKey` and
`solution` are embedded as pure Lean functions over `List Nat` byte buffers.
Bytes are natural numbers; every arithmetic step that wraps in C carries an
explicit `% 256`. A read of a byte buffer is modelled with `List.get?`, so an
out-of-bounds access in the C code shows up as `none` instead of silently
producing a value.
-/

namespace SmartCube

/-- The fixed 36-byte decryption table from line 26 of the sketch. -/
def decryptionKey : List Nat :=
  [176, 81, 104, 224, 86, 137, 237, 119, 38, 26, 193, 161, 210, 126, 150, 81,
   93, 13, 236, 249, 89, 235, 88, 24, 113, 81, 214, 131, 130, 199, 2, 169,
   39, 165, 171, 41]

/-- The 16-byte array representing a solved cube, line 30 of the sketch. -/
def solution : List Nat :=
  [0x12, 0x34, 0x56, 0x78, 0x33, 0x33, 0x33, 0x33,
   0x12, 0x34, 0x56, 0x78, 0x9a, 0xbc, 0x00, 0x00]

/-- `getBit` from the sketch: the ith bit of the buffer, most significant bit
of each byte first.  `none` models the out-of-bounds read `val[i/8]` would
perform in C when `i/8` is past the end of the buffer. -/
def getBit (val : List Nat) (i : Nat) : Option Nat :=
  (val[i / 8]?).map fun b => (b >>> (7 - i % 8)) &&& 1

/-- `getNibble` from the sketch: for odd `i` the low nibble `val[i/2] % 16`,
for even `i` the high nibble `val[i/2] / 16`.  `none` models the
out-of-bounds read `val[i/2]` would perform in C. -/
def getNibble (val : List Nat) (i : Nat) : Option Nat :=
  if i % 2 == 1 then
    (val[i / 2]?).map fun b => b % 16
  else
    (val[i / 2]?).map fun b => b / 16

/-- The in-place decryption loop of `notifyCallback` (lines 125-128):
`for (i = 0; i < n; i++) pData[i] += decryptionKey[offset1+i] + decryptionKey[offset2+i]`,
started at index `i` with `n` iterations left.  Each `+=` on a `uint8_t`
wraps, hence the `% 256`.  `none` models an out-of-bounds read of the data
or of the key table. -/
def decryptLoop (o1 o2 : Nat) : Nat → Nat → List Nat → Option (List Nat)
  | 0, _, data => some data
  | n + 1, i, data =>
    match data[i]?, decryptionKey[o1 + i]?, decryptionKey[o2 + i]? with
    | some b, some k1, some k2 =>
        decryptLoop o1 o2 n (i + 1) (data.set i ((b + k1 + k2) % 256))
    | _, _, _ => none

/-- The decryption stage of `notifyCallback` (lines 116-129): read the
penultimate byte; if it equals `0xA7` the payload is encrypted, so read the
two nibbles of the last byte as offsets and run the 20-iteration decryption
loop; otherwise the data passes through unchanged. -/
def decodedBytes (pData : List Nat) : Option (List Nat) :=
  match pData[18]? with
  | none => none
  | some b18 =>
    if b18 == 0xA7 then
      match getNibble pData 38, getNibble pData 39 with
      | some o1, some o2 => decryptLoop o1 o2 20 0 pData
      | _, _ => none
    else
      some pData

/-- Face name literal from line 142. -/
def frontName : String := "Front"

/-- Face name literal from line 142. -/
def bottomName : String := "Bottom"

/-- Face name literal from line 142. -/
def rightName : String := "Right"

/-- Face name literal from line 142. -/
def topName : String := "Top"

/-- Face name literal from line 142. -/
def leftName : String := "Left"

/-- Face name literal from line 142. -/
def backName : String := "Back"

/-- The face-name table of `notifyCallback`, line 142. -/
def faceNames : List String :=
  [frontName, bottomName, rightName, topName, leftName, backName]

/-- Clockwise direction text printed on line 145. -/
def clockwiseName : String := " Face Clockwise"

/-- Anti-clockwise direction text printed on line 145. -/
def antiClockwiseName : String := " Face Anti-Clockwise"

/-- The array access `faceNames[lastMoveFace - 1]` on line 144, with the C
`int` subtraction made explicit: a face value of `0` yields index `-1`, an
out-of-bounds read, modelled as `none`; likewise any index past the six
entries. -/
def faceNameAt (face : Nat) : Option String :=
  if face = 0 then none else faceNames[face - 1]?

/-- Everything `notifyCallback` derives from one payload: the 16 state bytes
it prints, the move nibbles, the face-name lookup (`none` when the C code
reads `faceNames` out of bounds), the direction text, and whether the
`memcmp` against `solution` succeeded (which fires the relay). -/
structure DecodeResult where
  pieceState : List Nat
  lastMoveFace : Nat
  lastMoveDirection : Nat
  faceName : Option String
  directionName : String
  solved : Bool
  deriving DecidableEq, Repr

/-- The full decoding pipeline of `notifyCallback` (lines 107-156): decrypt
if the marker says so, slice out the 16 piece-state bytes, read the move
nibbles from byte 16, look up the face name, classify the direction, and
compare the state against `solution`. -/
def decode (pData : List Nat) : Option DecodeResult :=
  (decodedBytes pData).bind fun data =>
    match getNibble data 32, getNibble data 33 with
    | some face, some dir =>
        some { pieceState := data.take 16
               lastMoveFace := face
               lastMoveDirection := dir
               faceName := faceNameAt face
               directionName := if dir == 1 then clockwiseName else antiClockwiseName
               solved := decide (data.take 16 = solution) }
    | _, _ => none

/-! ## Helper lemmas -/

theorem decryptionKey_length : decryptionKey.length = 36 := rfl

/-- Characterization of the in-place decryption loop: starting at index `i`
with `n` iterations left on a 20-byte buffer, with both offsets at most 15,
the loop succeeds, indices outside `[i, i+n)` are untouched, and each index
inside is replaced by the wrapped sum with the two key bytes. -/
theorem decryptLoop_spec (o1 o2 : Nat) (ho1 : o1 ≤ 15) (ho2 : o2 ≤ 15) (n : Nat) :
    ∀ (i : Nat) (data : List Nat), i + n ≤ 20 → data.length = 20 →
    ∃ d, decryptLoop o1 o2 n i data = some d ∧ d.length = 20 ∧
      (∀ j, j < i ∨ i + n ≤ j → d[j]? = data[j]?) ∧
      (∀ j, i ≤ j → j < i + n →
        d[j]? = (data[j]?).map fun b =>
          (b + decryptionKey.getD (o1 + j) 0 + decryptionKey.getD (o2 + j) 0) % 256) := by
  induction n with
  | zero =>
    intro i data _ hlen
    exact ⟨data, rfl, hlen, fun _ _ => rfl, fun j h1 h2 => by omega⟩
  | succ n ih =>
    intro i data hin hlen
    obtain ⟨b, hb⟩ : ∃ b, data[i]? = some b := by
      cases h : data[i]? with
      | none => exact absurd (List.getElem?_eq_none_iff.mp h) (by omega)
      | some b => exact ⟨b, rfl⟩
    obtain ⟨k1, hk1⟩ : ∃ k, decryptionKey[o1 + i]? = some k := by
      cases h : decryptionKey[o1 + i]? with
      | none =>
        have := List.getElem?_eq_none_iff.mp h
        rw [decryptionKey_length] at this
        omega
      | some k => exact ⟨k, rfl⟩
    obtain ⟨k2, hk2⟩ : ∃ k, decryptionKey[o2 + i]? = some k := by
      cases h : decryptionKey[o2 + i]? with
      | none =>
        have := List.getElem?_eq_none_iff.mp h
        rw [decryptionKey_length] at this
        omega
      | some k => exact ⟨k, rfl⟩
    have hstep : decryptLoop o1 o2 (n + 1) i data =
        decryptLoop o1 o2 n (i + 1) (data.set i ((b + k1 + k2) % 256)) := by
      simp [decryptLoop, hb, hk1, hk2]
    obtain ⟨d, hd, hdlen, hout, hin'⟩ :=
      ih (i + 1) (data.set i ((b + k1 + k2) % 256)) (by omega)
        (by rw [List.length_set]; exact hlen)
    refine ⟨d, by rw [hstep]; exact hd, hdlen, ?_, ?_⟩
    · intro j hj
      have hji : i ≠ j := by omega
      have := hout j (by omega)
      rwa [List.getElem?_set_ne hji] at this
    · intro j hij hjn
      rcases Nat.eq_or_lt_of_le hij with heq | hlt
      · subst heq
        have hsame := hout i (Or.inl (Nat.lt_succ_self i))
        rw [List.getElem?_set_self', hb] at hsame
        rw [hsame, hb]
        have e1 : decryptionKey.getD (o1 + i) 0 = k1 := by
          rw [List.getD_eq_getElem?_getD, hk1]; rfl
        have e2 : decryptionKey.getD (o2 + i) 0 = k2 := by
          rw [List.getD_eq_getElem?_getD, hk2]; rfl
        simp only [Option.map_some', Function.const_apply, e1, e2]
        rfl
      · have := hin' j hlt (by omega)
        rwa [List.getElem?_set_ne (by omega)] at this

/-- Every byte of the fixed key table is below 256. -/
theorem decryptionKey_bytes_lt : ∀ k ∈ decryptionKey, k < 256 := by
  decide

/-- A nibble extracted by `getNibble` from a buffer of bytes is below 16. -/
theorem getNibble_lt (val : List Nat) (i v : Nat) (hbytes : ∀ b ∈ val, b < 256)
    (h : getNibble val i = some v) : v < 16 := by
  unfold getNibble at h
  by_cases hpar : i % 2 == 1
  · rw [if_pos hpar] at h
    cases hg : val[i / 2]? with
    | none => rw [hg] at h; exact absurd h (by simp)
    | some b =>
      rw [hg] at h
      obtain ⟨hlt, hget⟩ := List.getElem?_eq_some.mp hg
      have hbv : b < 256 := hget ▸ hbytes _ (List.getElem_mem hlt)
      simp only [Option.map_some', Option.some.injEq] at h
      omega
  · rw [if_neg hpar] at h
    cases hg : val[i / 2]? with
    | none => rw [hg] at h; exact absurd h (by simp)
    | some b =>
      rw [hg] at h
      obtain ⟨hlt, hget⟩ := List.getElem?_eq_some.mp hg
      have hbv : b < 256 := hget ▸ hbytes _ (List.getElem_mem hlt)
      simp only [Option.map_some', Option.some.injEq] at h
      omega

/-- `getNibble` at an even index is the high nibble of the selected byte. -/
theorem getNibble_even (val : List Nat) (i b : Nat) (hpar : i % 2 = 0)
    (h : val[i / 2]? = some b) : getNibble val i = some (b / 16) := by
  simp [getNibble, hpar, h]

/-- `getNibble` at an odd index is the low nibble of the selected byte. -/
theorem getNibble_odd (val : List Nat) (i b : Nat) (hpar : i % 2 = 1)
    (h : val[i / 2]? = some b) : getNibble val i = some (b % 16) := by
  simp [getNibble, hpar, h]

/-- Inversion principle for `decode`: a successful decode comes from a
successful decryption stage and two successful nibble reads, and the result
record is built from them exactly as `notifyCallback` does. -/
theorem decode_inv (p : List Nat) (r : DecodeResult) (h : decode p = some r) :
    ∃ d face dir, decodedBytes p = some d ∧ getNibble d 32 = some face ∧
      getNibble d 33 = some dir ∧
      r = { pieceState := d.take 16
            lastMoveFace := face
            lastMoveDirection := dir
            faceName := faceNameAt face
            directionName := if dir == 1 then clockwiseName else antiClockwiseName
            solved := decide (d.take 16 = solution) } := by
  unfold decode at h
  cases hdb : decodedBytes p with
  | none => rw [hdb] at h; exact absurd h (by simp)
  | some d =>
    rw [hdb] at h
    simp only [Option.some_bind] at h
    cases h32 : getNibble d 32 with
    | none => rw [h32] at h; exact absurd h (by simp)
    | some face =>
      cases h33 : getNibble d 33 with
      | none => rw [h32, h33] at h; exact absurd h (by simp)
      | some dir =>
        rw [h32, h33] at h
        injection h with h'
        exact ⟨d, face, dir, rfl, h32, h33, h'.symm⟩

/-- When the marker byte is not `0xA7`, the decryption stage passes the
payload through unchanged. -/
theorem decodedBytes_not_encrypted (p : List Nat) (b18 : Nat)
    (h18 : p[18]? = some b18) (hne : b18 ≠ 0xA7) : decodedBytes p = some p := by
  unfold decodedBytes
  rw [h18]
  simp [hne]

/-- When the marker byte is `0xA7`, the decryption stage succeeds on a
20-byte payload of bytes and every byte `i` of the output is the input byte
plus the two key bytes selected by the nibbles of the original byte 19,
modulo 256. -/
theorem decodedBytes_encrypted (p : List Nat) (b19 : Nat)
    (hlen : p.length = 20) (hbytes : ∀ b ∈ p, b < 256)
    (h18 : p[18]? = some 0xA7) (h19 : p[19]? = some b19) :
    ∃ d, decodedBytes p = some d ∧ d.length = 20 ∧
      ∀ i, i < 20 → d[i]? = (p[i]?).map fun b =>
        (b + decryptionKey.getD (b19 / 16 + i) 0 +
          decryptionKey.getD (b19 % 16 + i) 0) % 256 := by
  have hb19 : b19 < 256 := by
    obtain ⟨hlt, hget⟩ := List.getElem?_eq_some.mp h19
    exact hget ▸ hbytes _ (List.getElem_mem hlt)
  have h38 : getNibble p 38 = some (b19 / 16) := by
    simp [getNibble, h19]
  have h39 : getNibble p 39 = some (b19 % 16) := by
    simp [getNibble, h19]
  obtain ⟨d, hd, hdlen, _, hin⟩ :=
    decryptLoop_spec (b19 / 16) (b19 % 16) (by omega) (by omega) 20 0 p
      (by omega) hlen
  refine ⟨d, ?_, hdlen, fun i hi => hin i (Nat.zero_le i) (by omega)⟩
  unfold decodedBytes
  rw [h18]
  simp only [beq_self_eq_true, if_true, h38, h39]
  exact hd

/-- For every pair of offsets in `[0, 15]` there is a loop index at which
the two selected key bytes do not sum to a multiple of 256, so the
decryption loop never maps a payload of bytes to itself. -/
theorem key_pair_changes :
    ∀ o1 < 16, ∀ o2 < 16, ∃ i < 20,
      (decryptionKey.getD (o1 + i) 0 + decryptionKey.getD (o2 + i) 0) % 256 ≠ 0 := by
  decide

/-- Every entry of the key table, read through `getD`, is below 256 (the
default 0 included). -/
theorem keyD_lt (j : Nat) : decryptionKey.getD j 0 < 256 := by
  rw [List.getD_eq_getElem?_getD]
  cases h : decryptionKey[j]? with
  | none => simp
  | some k =>
    obtain ⟨hlt, hget⟩ := List.getElem?_eq_some.mp h
    simpa using hget ▸ decryptionKey_bytes_lt _ (List.getElem_mem hlt)

/-! ## Forward obfuscation (modelled from the spec)

The source contains only the decoder; the forward transform below is the
construction named by the spec's obfuscation-reversal property (§8): it
subtracts, modulo 256, the same two key bytes per position that the
decryption loop adds back. -/

/-- Modelled from the spec: the byte-wise forward additive transform, the
inverse of the decryption loop, starting at position `i`.  Each output byte
is the input byte minus the two selected key bytes, modulo 256 (written with
an added 512 so the subtraction stays in `Nat`). -/
def obfuscateBytes (o1 o2 : Nat) : Nat → List Nat → List Nat
  | _, [] => []
  | i, b :: rest =>
      ((b + 512 - decryptionKey.getD (o1 + i) 0 - decryptionKey.getD (o2 + i) 0) % 256)
        :: obfuscateBytes o1 o2 (i + 1) rest

/-- Modelled from the spec: an obfuscated 20-byte payload built from a
16-byte piece state (padded with two zero move/filler bytes), with the
marker byte set to `0xA7` and byte 19 carrying `offset1` and `offset2` as
its high and low nibbles. -/
def forwardObfuscate (content : List Nat) (o1 o2 : Nat) : List Nat :=
  obfuscateBytes o1 o2 0 (content ++ [0, 0]) ++ [0xA7, 16 * o1 + o2]

theorem obfuscateBytes_length (o1 o2 : Nat) :
    ∀ (i : Nat) (l : List Nat), (obfuscateBytes o1 o2 i l).length = l.length := by
  intro i l
  induction l generalizing i with
  | nil => rfl
  | cons b rest ih => simp [obfuscateBytes, ih]

theorem obfuscateBytes_getElem? (o1 o2 : Nat) :
    ∀ (i j : Nat) (l : List Nat),
      (obfuscateBytes o1 o2 i l)[j]? = (l[j]?).map fun b =>
        (b + 512 - decryptionKey.getD (o1 + i + j) 0 -
          decryptionKey.getD (o2 + i + j) 0) % 256 := by
  intro i j l
  induction l generalizing i j with
  | nil => simp [obfuscateBytes]
  | cons b rest ih =>
    cases j with
    | zero => simp [obfuscateBytes]
    | succ j =>
      have e1 : o1 + i + (j + 1) = o1 + (i + 1) + j := by omega
      have e2 : o2 + i + (j + 1) = o2 + (i + 1) + j := by omega
      simp only [obfuscateBytes, List.getElem?_cons_succ, e1, e2, ih]

theorem obfuscateBytes_bytes_lt (o1 o2 : Nat) :
    ∀ (i : Nat) (l : List Nat), ∀ b ∈ obfuscateBytes o1 o2 i l, b < 256 := by
  intro i l
  induction l generalizing i with
  | nil => intro b hb; simp [obfuscateBytes] at hb
  | cons c rest ih =>
    intro b hb
    simp only [obfuscateBytes, List.mem_cons] at hb
    rcases hb with hb | hb
    · omega
    · exact ih (i + 1) b hb

/-! ## Claim theorems -/

/-- C1: for every 20-byte payload whose byte 18 is `0xA7`, the decoder reads
`offset1` as the high nibble and `offset2` as the low nibble of byte 19
(nibble indices 38 and 39), and replaces each payload byte `i` in `[0, 20)`
with `(payload[i] + key[offset1 + i] + key[offset2 + i]) mod 256` over the
fixed 36-byte decryption table. -/
theorem decrypt_reads_offsets_and_transforms (p : List Nat)
    (hlen : p.length = 20) (hbytes : ∀ b ∈ p, b < 256)
    (h18 : p[18]? = some 0xA7) :
    ∃ b19 o1 o2 d, p[19]? = some b19 ∧ o1 = b19 / 16 ∧ o2 = b19 % 16 ∧
      getNibble p 38 = some o1 ∧ getNibble p 39 = some o2 ∧
      decodedBytes p = some d ∧
      ∀ i, i < 20 → d[i]? = (p[i]?).map fun b =>
        (b + decryptionKey.getD (o1 + i) 0 + decryptionKey.getD (o2 + i) 0) % 256 := by
  obtain ⟨b19, h19⟩ : ∃ b, p[19]? = some b := by
    cases h : p[19]? with
    | none => exact absurd (List.getElem?_eq_none_iff.mp h) (by omega)
    | some b => exact ⟨b, rfl⟩
  obtain ⟨d, hd, _, hin⟩ := decodedBytes_encrypted p b19 hlen hbytes h18 h19
  exact ⟨b19, b19 / 16, b19 % 16, d, h19, rfl, rfl,
    by simp [getNibble, h19], by simp [getNibble, h19], hd, hin⟩

/-- C9: for every 20-byte payload of bytes, the two offsets produced by the
nibble extractor are at most 15, so every key-table index `offset + i` used
by the decryption loop stays strictly below the key length 36; each key
read is therefore in bounds. -/
theorem key_indices_in_bounds (p : List Nat) (o1 o2 : Nat)
    (hbytes : ∀ b ∈ p, b < 256)
    (h38 : getNibble p 38 = some o1) (h39 : getNibble p 39 = some o2) :
    o1 ≤ 15 ∧ o2 ≤ 15 ∧ ∀ i, i < 20 →
      o1 + i < decryptionKey.length ∧ o2 + i < decryptionKey.length ∧
      (∃ k, decryptionKey[o1 + i]? = some k) ∧
      (∃ k, decryptionKey[o2 + i]? = some k) := by
  have h1 : o1 < 16 := getNibble_lt p 38 o1 hbytes h38
  have h2 : o2 < 16 := getNibble_lt p 39 o2 hbytes h39
  refine ⟨by omega, by omega, fun i hi => ?_⟩
  rw [decryptionKey_length]
  refine ⟨by omega, by omega, ?_, ?_⟩
  · cases hk : decryptionKey[o1 + i]? with
    | none =>
      have := List.getElem?_eq_none_iff.mp hk
      rw [decryptionKey_length] at this
      omega
    | some k => exact ⟨k, rfl⟩
  · cases hk : decryptionKey[o2 + i]? with
    | none =>
      have := List.getElem?_eq_none_iff.mp hk
      rw [decryptionKey_length] at this
      omega
    | some k => exact ⟨k, rfl⟩

/-- C10: the decryptor reads both offsets from byte 19 before mutating any
payload byte, so even byte 19 — overwritten by the final loop iteration —
is transformed using the offsets taken from the original payload; the
decrypted output is a function of the original input bytes and the fixed
key alone. -/
theorem byte19_uses_original_offsets (p : List Nat) (b19 : Nat)
    (hlen : p.length = 20) (hbytes : ∀ b ∈ p, b < 256)
    (h18 : p[18]? = some 0xA7) (h19 : p[19]? = some b19) :
    ∃ d, decodedBytes p = some d ∧
      d[19]? = some ((b19 + decryptionKey.getD (b19 / 16 + 19) 0 +
        decryptionKey.getD (b19 % 16 + 19) 0) % 256) := by
  obtain ⟨d, hd, _, hin⟩ := decodedBytes_encrypted p b19 hlen hbytes h18 h19
  refine ⟨d, hd, ?_⟩
  rw [hin 19 (by omega), h19]
  rfl

/-- C4: the de-obfuscation transform is applied if and only if byte 18
equals the fixed marker `0xA7`: for every other marker value the decryption
stage returns the payload unchanged, and when the marker is present the
output genuinely differs from the input (for this key no offset pair leaves
every byte fixed). -/
theorem transform_iff_marker (p : List Nat) (hlen : p.length = 20)
    (hbytes : ∀ b ∈ p, b < 256) :
    ∃ d, decodedBytes p = some d ∧ (d = p ↔ p[18]? ≠ some 0xA7) := by
  obtain ⟨b18, h18⟩ : ∃ b, p[18]? = some b := by
    cases h : p[18]? with
    | none => exact absurd (List.getElem?_eq_none_iff.mp h) (by omega)
    | some b => exact ⟨b, rfl⟩
  by_cases hmk : b18 = 0xA7
  · subst hmk
    obtain ⟨b19, h19⟩ : ∃ b, p[19]? = some b := by
      cases h : p[19]? with
      | none => exact absurd (List.getElem?_eq_none_iff.mp h) (by omega)
      | some b => exact ⟨b, rfl⟩
    have hb19 : b19 < 256 := by
      obtain ⟨hlt, hget⟩ := List.getElem?_eq_some.mp h19
      exact hget ▸ hbytes _ (List.getElem_mem hlt)
    obtain ⟨d, hd, hdlen, hin⟩ := decodedBytes_encrypted p b19 hlen hbytes h18 h19
    refine ⟨d, hd, ?_⟩
    constructor
    · intro hdp
      exfalso
      obtain ⟨i, hi, hsum⟩ :=
        key_pair_changes (b19 / 16) (by omega) (b19 % 16) (by omega)
      obtain ⟨b, hbi⟩ : ∃ b, p[i]? = some b := by
        cases h : p[i]? with
        | none => exact absurd (List.getElem?_eq_none_iff.mp h) (by omega)
        | some b => exact ⟨b, rfl⟩
      have hblt : b < 256 := by
        obtain ⟨hlt, hget⟩ := List.getElem?_eq_some.mp hbi
        exact hget ▸ hbytes _ (List.getElem_mem hlt)
      have heq := hin i hi
      rw [hdp, hbi] at heq
      simp only [Option.map_some', Option.some.injEq] at heq
      omega
    · intro hne
      exact absurd h18 hne
  · rw [decodedBytes_not_encrypted p b18 h18 hmk]
    refine ⟨p, rfl, ?_⟩
    constructor
    · intro _ hc
      rw [h18] at hc
      injection hc with hc'
      exact hmk hc'
    · intro _
      rfl

/-- C8: for every 20-byte payload whose byte 18 is not `0xA7`, the
decryption stage leaves all 20 bytes unchanged and the decoder extracts
bytes 0-15 verbatim as the piece state. -/
theorem passthrough_extracts_verbatim (p : List Nat) (b18 : Nat)
    (hlen : p.length = 20) (h18 : p[18]? = some b18) (hne : b18 ≠ 0xA7) :
    decodedBytes p = some p ∧
    ∃ r, decode p = some r ∧ r.pieceState = p.take 16 := by
  have hpass := decodedBytes_not_encrypted p b18 h18 hne
  refine ⟨hpass, ?_⟩
  obtain ⟨b16, h16⟩ : ∃ b, p[16]? = some b := by
    cases h : p[16]? with
    | none => exact absurd (List.getElem?_eq_none_iff.mp h) (by omega)
    | some b => exact ⟨b, rfl⟩
  have h32 : getNibble p 32 = some (b16 / 16) := by simp [getNibble, h16]
  have h33 : getNibble p 33 = some (b16 % 16) := by simp [getNibble, h16]
  refine ⟨{ pieceState := p.take 16
            lastMoveFace := b16 / 16
            lastMoveDirection := b16 % 16
            faceName := faceNameAt (b16 / 16)
            directionName := if b16 % 16 == 1 then clockwiseName else antiClockwiseName
            solved := decide (p.take 16 = solution) }, ?_, rfl⟩
  unfold decode
  rw [hpass]
  simp only [Option.some_bind]
  rw [h32, h33]

/-- C3: for every successfully decoded payload, the solved flag is true if
and only if the 16 decoded piece-state bytes equal the constant pattern
`12 34 56 78 33 33 33 33 12 34 56 78 9A BC 00 00` byte for byte. -/
theorem solved_iff_pattern (p : List Nat) (r : DecodeResult)
    (h : decode p = some r) :
    r.solved = true ↔ r.pieceState =
      [0x12, 0x34, 0x56, 0x78, 0x33, 0x33, 0x33, 0x33,
       0x12, 0x34, 0x56, 0x78, 0x9a, 0xbc, 0x00, 0x00] := by
  obtain ⟨d, face, dir, _, _, _, hr⟩ := decode_inv p r h
  subst hr
  simp [solution]

/-- C5: for every successfully decoded payload the move face is the high
nibble of decoded byte 16 read as a 1-based index into
Front, Bottom, Right, Top, Left, Back, and the direction text is the
clockwise one exactly when the low nibble equals 1. -/
theorem move_face_direction (p : List Nat) (r : DecodeResult) (d : List Nat)
    (b16 : Nat) (h : decode p = some r) (hdb : decodedBytes p = some d)
    (h16 : d[16]? = some b16) :
    r.lastMoveFace = b16 / 16 ∧ r.lastMoveDirection = b16 % 16 ∧
    (b16 / 16 = 1 → r.faceName = some frontName) ∧
    (b16 / 16 = 2 → r.faceName = some bottomName) ∧
    (b16 / 16 = 3 → r.faceName = some rightName) ∧
    (b16 / 16 = 4 → r.faceName = some topName) ∧
    (b16 / 16 = 5 → r.faceName = some leftName) ∧
    (b16 / 16 = 6 → r.faceName = some backName) ∧
    (r.directionName = clockwiseName ↔ b16 % 16 = 1) := by
  obtain ⟨d', face, dir, hdb', h32, h33, hr⟩ := decode_inv p r h
  rw [hdb] at hdb'
  injection hdb' with hdd
  subst hdd
  have h32' : getNibble d 32 = some (b16 / 16) := by simp [getNibble, h16]
  have h33' : getNibble d 33 = some (b16 % 16) := by simp [getNibble, h16]
  rw [h32] at h32'
  injection h32' with hface
  rw [h33] at h33'
  injection h33' with hdir
  subst hface
  subst hdir
  subst hr
  refine ⟨rfl, rfl, ?_, ?_, ?_, ?_, ?_, ?_, ?_⟩
  · intro he; show faceNameAt (b16 / 16) = _; rw [he]; rfl
  · intro he; show faceNameAt (b16 / 16) = _; rw [he]; rfl
  · intro he; show faceNameAt (b16 / 16) = _; rw [he]; rfl
  · intro he; show faceNameAt (b16 / 16) = _; rw [he]; rfl
  · intro he; show faceNameAt (b16 / 16) = _; rw [he]; rfl
  · intro he; show faceNameAt (b16 / 16) = _; rw [he]; rfl
  · show (if (b16 % 16 == 1) = true then clockwiseName else antiClockwiseName) =
        clockwiseName ↔ b16 % 16 = 1
    constructor
    · intro hcw
      by_contra hne
      rw [if_neg (by simpa using hne)] at hcw
      exact absurd hcw (by decide)
    · intro h1
      rw [if_pos (by simpa using h1)]

/-- C2: for every 16-byte piece state and every pair of offsets in
`[0, 15]`, building an obfuscated payload with the forward additive
transform (marker byte `0xA7`, byte 19 carrying the offsets as nibbles)
and then decoding it recovers the original piece-state bytes: the additive
relationship is its own inverse modulo 256. -/
theorem obfuscation_roundtrip (content : List Nat) (hlen : content.length = 16)
    (hbytes : ∀ b ∈ content, b < 256) (o1 o2 : Nat)
    (ho1 : o1 ≤ 15) (ho2 : o2 ≤ 15) :
    ∃ r, decode (forwardObfuscate content o1 o2) = some r ∧
      r.pieceState = content := by
  have hPdef : forwardObfuscate content o1 o2 =
      obfuscateBytes o1 o2 0 (content ++ [0, 0]) ++ [0xA7, 16 * o1 + o2] := rfl
  have hqlen : (obfuscateBytes o1 o2 0 (content ++ [0, 0])).length = 18 := by
    rw [obfuscateBytes_length, List.length_append, hlen]
    rfl
  have hPlen : (forwardObfuscate content o1 o2).length = 20 := by
    rw [hPdef, List.length_append, hqlen]
    rfl
  have h18 : (forwardObfuscate content o1 o2)[18]? = some 0xA7 := by
    rw [hPdef, List.getElem?_append_right (by omega), hqlen]
    rfl
  have h19 : (forwardObfuscate content o1 o2)[19]? = some (16 * o1 + o2) := by
    rw [hPdef, List.getElem?_append_right (by omega), hqlen]
    rfl
  have hPbytes : ∀ b ∈ forwardObfuscate content o1 o2, b < 256 := by
    intro b hb
    rw [hPdef, List.mem_append] at hb
    rcases hb with hb | hb
    · exact obfuscateBytes_bytes_lt o1 o2 0 (content ++ [0, 0]) b hb
    · simp only [List.mem_cons, List.not_mem_nil, or_false] at hb
      rcases hb with hb | hb <;> omega
  obtain ⟨d, hd, hdlen, hin⟩ :=
    decodedBytes_encrypted (forwardObfuscate content o1 o2) (16 * o1 + o2)
      hPlen hPbytes h18 h19
  have ho1' : (16 * o1 + o2) / 16 = o1 := by omega
  have ho2' : (16 * o1 + o2) % 16 = o2 := by omega
  obtain ⟨b16, h16⟩ : ∃ b, d[16]? = some b := by
    cases h : d[16]? with
    | none => exact absurd (List.getElem?_eq_none_iff.mp h) (by omega)
    | some b => exact ⟨b, rfl⟩
  have h32 : getNibble d 32 = some (b16 / 16) := by simp [getNibble, h16]
  have h33 : getNibble d 33 = some (b16 % 16) := by simp [getNibble, h16]
  have hstate : d.take 16 = content := by
    apply List.ext_getElem?
    intro n
    by_cases hn : n < 16
    · rw [List.getElem?_take_of_lt hn]
      obtain ⟨c, hc⟩ : ∃ c, content[n]? = some c := by
        cases h : content[n]? with
        | none => exact absurd (List.getElem?_eq_none_iff.mp h) (by omega)
        | some c => exact ⟨c, rfl⟩
      have hclt : c < 256 := by
        obtain ⟨hlt, hget⟩ := List.getElem?_eq_some.mp hc
        exact hget ▸ hbytes _ (List.getElem_mem hlt)
      have hPn : (forwardObfuscate content o1 o2)[n]? =
          some ((c + 512 - decryptionKey.getD (o1 + n) 0 -
            decryptionKey.getD (o2 + n) 0) % 256) := by
        rw [hPdef, List.getElem?_append_left (by omega), obfuscateBytes_getElem?,
          List.getElem?_append_left (by omega), hc]
        simp only [Option.map_some', Nat.add_zero]
      have hdn := hin n (by omega)
      rw [hPn, ho1', ho2'] at hdn
      simp only [Option.map_some'] at hdn
      rw [hdn, hc]
      congr 1
      have k1lt := keyD_lt (o1 + n)
      have k2lt := keyD_lt (o2 + n)
      omega
    · have e1 : (d.take 16)[n]? = none := by
        apply List.getElem?_eq_none
        rw [List.length_take]
        omega
      have e2 : content[n]? = none := List.getElem?_eq_none (by omega)
      rw [e1, e2]
  refine ⟨{ pieceState := d.take 16
            lastMoveFace := b16 / 16
            lastMoveDirection := b16 % 16
            faceName := faceNameAt (b16 / 16)
            directionName := if b16 % 16 == 1 then clockwiseName else antiClockwiseName
            solved := decide (d.take 16 = solution) }, ?_, hstate⟩
  unfold decode
  rw [hd]
  simp only [Option.some_bind]
  rw [h32, h33]

/-- C6 is refuted by the source: `notifyCallback` receives the notification
length but never reads it, so a 19-byte input (and equally a 21-byte input,
of which only the first 20 bytes matter) is decoded in full — piece state,
move and solved flag are all produced — instead of being rejected as an
invalid-length payload. -/
theorem no_length_guard :
    (solution ++ [0x12, 0x00, 0x00]).length = 19 ∧
    decode (solution ++ [0x12, 0x00, 0x00]) =
      some { pieceState := solution
             lastMoveFace := 1
             lastMoveDirection := 2
             faceName := some frontName
             directionName := antiClockwiseName
             solved := true } ∧
    (solution ++ [0x11, 0x00, 0x00, 0x00, 0x99]).length = 21 ∧
    decode (solution ++ [0x11, 0x00, 0x00, 0x00, 0x99]) =
      some { pieceState := solution
             lastMoveFace := 1
             lastMoveDirection := 1
             faceName := some frontName
             directionName := clockwiseName
             solved := true } :=
  ⟨rfl, rfl, rfl, rfl⟩

/-- C7 is refuted by the source: a face nibble of 0 makes line 144 read
`faceNames[-1]` and a face nibble of 7 makes it read `faceNames[6]`, both
out of bounds (modelled as `faceName = none`); no `UnrecognizedFace` error
value exists in the sketch, although the piece state and the solved flag
are still produced. -/
theorem face_nibble_out_of_range :
    decode (solution ++ [0x01, 0x00, 0x00, 0x00]) =
      some { pieceState := solution
             lastMoveFace := 0
             lastMoveDirection := 1
             faceName := none
             directionName := clockwiseName
             solved := true } ∧
    decode (solution ++ [0x71, 0x00, 0x00, 0x00]) =
      some { pieceState := solution
             lastMoveFace := 7
             lastMoveDirection := 1
             faceName := none
             directionName := clockwiseName
             solved := true } :=
  ⟨rfl, rfl⟩

/-! ## Concrete payloads for witnesses -/

/-- A concrete encrypted payload: the forward transform of the solved state
(with move byte `0x63` and a zero filler byte) under offsets 5 and 7; its
byte 18 is `0xA7` and its byte 19 is `0x57`. -/
def encPayload : List Nat :=
  [18, 33, 197, 145, 120, 160, 20, 203, 67, 65, 248, 47, 148, 119, 28, 79,
   96, 55, 167, 87]

/-- A concrete unencrypted payload: the solved state followed by move byte
`0x63` and three zero bytes. -/
def plainPayload : List Nat := solution ++ [0x63, 0x00, 0x00, 0x00]

/-- The decode result of `plainPayload` (and of `encPayload`, which carries
the same content in obfuscated form): solved state, move Back
anti-clockwise. -/
def plainResult : DecodeResult :=
  { pieceState := solution
    lastMoveFace := 6
    lastMoveDirection := 3
    faceName := some backName
    directionName := antiClockwiseName
    solved := true }

/-! ## Witnesses -/

theorem decrypt_reads_offsets_and_transforms_witness :
    encPayload.length = 20 ∧ (∀ b ∈ encPayload, b < 256) ∧
    encPayload[18]? = some 0xA7 ∧
    ∃ b19 o1 o2 d, encPayload[19]? = some b19 ∧ o1 = b19 / 16 ∧ o2 = b19 % 16 ∧
      getNibble encPayload 38 = some o1 ∧ getNibble encPayload 39 = some o2 ∧
      decodedBytes encPayload = some d ∧
      ∀ i, i < 20 → d[i]? = (encPayload[i]?).map fun b =>
        (b + decryptionKey.getD (o1 + i) 0 + decryptionKey.getD (o2 + i) 0) % 256 :=
  ⟨rfl, by decide, rfl,
    decrypt_reads_offsets_and_transforms encPayload rfl (by decide) rfl⟩

theorem key_indices_in_bounds_witness :
    (∀ b ∈ encPayload, b < 256) ∧
    getNibble encPayload 38 = some 5 ∧ getNibble encPayload 39 = some 7 ∧
    ((5 : Nat) ≤ 15 ∧ (7 : Nat) ≤ 15 ∧ ∀ i, i < 20 →
      5 + i < decryptionKey.length ∧ 7 + i < decryptionKey.length ∧
      (∃ k, decryptionKey[5 + i]? = some k) ∧
      (∃ k, decryptionKey[7 + i]? = some k)) :=
  ⟨by decide, rfl, rfl, key_indices_in_bounds encPayload 5 7 (by decide) rfl rfl⟩

theorem byte19_uses_original_offsets_witness :
    encPayload.length = 20 ∧ (∀ b ∈ encPayload, b < 256) ∧
    encPayload[18]? = some 0xA7 ∧ encPayload[19]? = some 87 ∧
    ∃ d, decodedBytes encPayload = some d ∧
      d[19]? = some ((87 + decryptionKey.getD (87 / 16 + 19) 0 +
        decryptionKey.getD (87 % 16 + 19) 0) % 256) :=
  ⟨rfl, by decide, rfl, rfl,
    byte19_uses_original_offsets encPayload 87 rfl (by decide) rfl rfl⟩

theorem transform_iff_marker_witness :
    plainPayload.length = 20 ∧ (∀ b ∈ plainPayload, b < 256) ∧
    ∃ d, decodedBytes plainPayload = some d ∧
      (d = plainPayload ↔ plainPayload[18]? ≠ some 0xA7) :=
  ⟨rfl, by decide, transform_iff_marker plainPayload rfl (by decide)⟩

theorem passthrough_extracts_verbatim_witness :
    plainPayload.length = 20 ∧ plainPayload[18]? = some 0 ∧ (0 : Nat) ≠ 0xA7 ∧
    (decodedBytes plainPayload = some plainPayload ∧
     ∃ r, decode plainPayload = some r ∧ r.pieceState = plainPayload.take 16) :=
  ⟨rfl, rfl, by decide,
    passthrough_extracts_verbatim plainPayload 0 rfl rfl (by decide)⟩

theorem solved_iff_pattern_witness :
    decode plainPayload = some plainResult ∧
    (plainResult.solved = true ↔ plainResult.pieceState =
      [0x12, 0x34, 0x56, 0x78, 0x33, 0x33, 0x33, 0x33,
       0x12, 0x34, 0x56, 0x78, 0x9a, 0xbc, 0x00, 0x00]) :=
  ⟨rfl, solved_iff_pattern plainPayload plainResult rfl⟩

theorem move_face_direction_witness :
    decode plainPayload = some plainResult ∧
    decodedBytes plainPayload = some plainPayload ∧
    plainPayload[16]? = some 0x63 ∧
    (plainResult.lastMoveFace = 0x63 / 16 ∧
     plainResult.lastMoveDirection = 0x63 % 16 ∧
     ((0x63 : Nat) / 16 = 1 → plainResult.faceName = some frontName) ∧
     ((0x63 : Nat) / 16 = 2 → plainResult.faceName = some bottomName) ∧
     ((0x63 : Nat) / 16 = 3 → plainResult.faceName = some rightName) ∧
     ((0x63 : Nat) / 16 = 4 → plainResult.faceName = some topName) ∧
     ((0x63 : Nat) / 16 = 5 → plainResult.faceName = some leftName) ∧
     ((0x63 : Nat) / 16 = 6 → plainResult.faceName = some backName) ∧
     (plainResult.directionName = clockwiseName ↔ (0x63 : Nat) % 16 = 1)) :=
  ⟨rfl, rfl, rfl,
    move_face_direction plainPayload plainResult plainPayload 0x63 rfl rfl rfl⟩

theorem obfuscation_roundtrip_witness :
    solution.length = 16 ∧ (∀ b ∈ solution, b < 256) ∧
    (5 : Nat) ≤ 15 ∧ (7 : Nat) ≤ 15 ∧
    ∃ r, decode (forwardObfuscate solution 5 7) = some r ∧
      r.pieceState = solution :=
  ⟨rfl, by decide, by decide, by decide,
    obfuscation_roundtrip solution rfl (by decide) 5 7 (by decide) (by decide)⟩

end SmartCube
